import Mathlib

/-!
Verification of the Gascii frame-extraction core.

The delta encoder is the inline loop of `extract_ansi_frames_optimized`
(src/scripts/extract_ansi_frames_optimized.py, lines 115-214); the retimer is
the slot-count computation at lines 104-106 (and `gen_tasks` in
src/scripts/extract_raw_rgb.py, lines 124-131); the binary payload builder is
`_process_task` in src/scripts/extract_raw_rgb.py, lines 64-76.

The current frame `rgb` is produced by `cv2.resize(frame, (width, height*2))`
immediately before the scan, so it always has exactly `height*2` rows of
`width` pixels; we embed it as a total function on those indices.  The
baseline `prev_rgb` is a separate numpy array whose shape could in principle
differ, so we embed it as a list of rows and read it with `Option`-valued
access (a failed read is numpy's `IndexError`).
-/

namespace Gascii

/-- An RGB pixel, one byte per channel (values are exact integers). -/
abbrev Pix := ℕ × ℕ × ℕ

/-- The current frame `rgb`: pixel at row `y2` (of `height*2`), column `x`. -/
abbrev GridFun := ℕ → ℕ → Pix

/-- A materialised pixel array (`prev_rgb`): a list of pixel rows. -/
abbrev Rows := List (List Pix)

/-- One token of the operation stream appended to `ansi_parts`. -/
inductive Token where
  /-- cursor move `ESC[y;xH` (1-based) -/
  | move (y x : ℕ)
  /-- background color `ESC[48;2;r;g;bm` -/
  | bg (p : Pix)
  /-- foreground color `ESC[38;2;r;g;bm` -/
  | fg (p : Pix)
  /-- the half-block glyph -/
  | draw
  /-- attribute reset `ESC[0m` -/
  | reset
deriving DecidableEq, Repr

/-- Encoder-internal state: tracked cursor (`cursor_y`, `cursor_x`), tracked
active colors (`cur_bg`, `cur_fg`, `none` = unset), and the emitted tokens
(`ansi_parts`). -/
structure EncSt where
  cursorY : ℕ
  cursorX : ℕ
  curBg : Option Pix
  curFg : Option Pix
  out : List Token
deriving DecidableEq, Repr

/-- The state at the start of every encode call: cursor `(1,1)`, both colors
unset, nothing emitted (source lines 115-123). -/
def initSt : EncSt := ⟨1, 1, none, none, []⟩

/-- Row `y2` of the current frame, materialised as the list of its `w`
pixels. -/
def mkRow (cur : GridFun) (y2 w : ℕ) : List Pix :=
  (List.range w).map (fun x => cur y2 x)

/-- Materialise a function grid as a pixel array of `h2` rows by `w`
columns (this is the array the loop stores into `prev_rgb`). -/
def toRows (cur : GridFun) (w h2 : ℕ) : Rows :=
  (List.range h2).map (fun y2 => mkRow cur y2 w)

/-- Read pixel `(y2, x)` of a materialised array; `none` is an
out-of-bounds read (numpy `IndexError`). -/
def pixAt (rows : Rows) (y2 x : ℕ) : Option Pix :=
  (rows.get? y2).bind (fun r => r.get? x)

/-- The per-cell change test (source lines 150-155): with no baseline the
cell counts as changed; otherwise read both baseline pixels and compare.
`none` means a baseline read was out of bounds. -/
def cellChanged (cur : GridFun) (prev : Option Rows) (y2 x : ℕ) : Option Bool :=
  match prev with
  | none => some true
  | some p =>
    match pixAt p y2 x, pixAt p (y2 + 1) x with
    | some pt, some pb => some (decide (¬(cur y2 x = pt ∧ cur (y2 + 1) x = pb)))
    | _, _ => none

/-- Emit the tokens for one changed cell (source lines 160-199): move the
cursor unless it is already at the 1-based target, emit background and
foreground colors only when they differ from the tracked active colors,
emit the glyph, and advance the tracked column by one. -/
def drawCell (top bottom : Pix) (y x : ℕ) (s : EncSt) : EncSt :=
  let s1 := if s.cursorY = y + 1 ∧ s.cursorX = x + 1 then s
    else { s with out := s.out ++ [Token.move (y + 1) (x + 1)], cursorY := y + 1, cursorX := x + 1 }
  let s2 := if s1.curBg = some top then s1
    else { s1 with out := s1.out ++ [Token.bg top], curBg := some top }
  let s3 := if s2.curFg = some bottom then s2
    else { s2 with out := s2.out ++ [Token.fg bottom], curFg := some bottom }
  { s3 with out := s3.out ++ [Token.draw], cursorX := s3.cursorX + 1 }

/-- Process one cell of logical row `y`: skip it silently when unchanged,
draw it when changed, fail on an out-of-bounds baseline read. -/
def encodeCell (cur : GridFun) (prev : Option Rows) (y x : ℕ) (s : EncSt) :
    Option EncSt :=
  match cellChanged cur prev (2 * y) x with
  | none => none
  | some false => some s
  | some true => some (drawCell (cur (2 * y) x) (cur (2 * y + 1) x) y x s)

/-- Scan the given columns of logical row `y` in order (`for x in
range(width)`). -/
def scanCells (cur : GridFun) (prev : Option Rows) (y : ℕ) :
    List ℕ → EncSt → Option EncSt
  | [], s => some s
  | x :: xs, s =>
    match encodeCell cur prev y x s with
    | none => none
    | some s2 => scanCells cur prev y xs s2

/-- Process logical row `y` (source lines 126-199): when a baseline exists
and its 2-pixel band slice equals the current band (numpy `array_equal`:
same shape and same entries), skip the whole row; otherwise scan the
columns. -/
def encodeRow (cur : GridFun) (prev : Option Rows) (w y : ℕ) (s : EncSt) :
    Option EncSt :=
  match prev with
  | some p =>
    if [mkRow cur (2 * y) w, mkRow cur (2 * y + 1) w]
        = (p.drop (2 * y)).take 2 then some s
    else scanCells cur prev y (List.range w) s
  | none => scanCells cur prev y (List.range w) s

/-- Scan the given logical rows in order (`for y in range(height)`). -/
def scanRows (cur : GridFun) (prev : Option Rows) (w : ℕ) :
    List ℕ → EncSt → Option EncSt
  | [], s => some s
  | y :: ys, s =>
    match encodeRow cur prev w y s with
    | none => none
    | some s2 => scanRows cur prev w ys s2

/-- The delta encode of one frame (source lines 115-214): scan all rows from
the fresh initial state, then append one reset token exactly when anything
was emitted.  `none` is an uncaught `IndexError` from a baseline read. -/
def ansiDiff (w h : ℕ) (cur : GridFun) (prev : Option Rows) :
    Option (List Token) :=
  (scanRows cur prev w (List.range h) initSt).map
    (fun s => if s.out = [] then [] else s.out ++ [Token.reset])

/-- Render one token as its escape string (source lines 17-19, 175, 190,
194, 198, 212). -/
def renderToken : Token → String
  | Token.move y x => "\x1b[" ++ toString y ++ ";" ++ toString x ++ "H"
  | Token.bg (r, g, b) =>
    "\x1b[48;2;" ++ toString r ++ ";" ++ toString g ++ ";" ++ toString b ++ "m"
  | Token.fg (r, g, b) =>
    "\x1b[38;2;" ++ toString r ++ ";" ++ toString g ++ ";" ++ toString b ++ "m"
  | Token.draw => "▄"
  | Token.reset => "\x1b[0m"

/-- The written payload: the concatenation of the emitted tokens
(`"".join(ansi_parts)`). -/
def renderTokens (ts : List Token) : String :=
  String.join (ts.map renderToken)

/-- Number of cursor-move tokens in a stream. -/
def countMove : List Token → ℕ
  | [] => 0
  | Token.move _ _ :: ts => countMove ts + 1
  | _ :: ts => countMove ts

/-- Number of draw (glyph) tokens in a stream. -/
def countDraw : List Token → ℕ
  | [] => 0
  | Token.draw :: ts => countDraw ts + 1
  | _ :: ts => countDraw ts

/-- Number of set-background tokens in a stream. -/
def countBg : List Token → ℕ
  | [] => 0
  | Token.bg _ :: ts => countBg ts + 1
  | _ :: ts => countBg ts

/-- Scenario A grid: one cell, top pixel red, bottom pixel green. -/
def gA : GridFun := fun y _ => if y = 0 then (255, 0, 0) else (0, 255, 0)

/-- Scenario B tick-2 grid: two cells in one row, tops red, left bottom
green, right bottom blue. -/
def gB : GridFun :=
  fun y x => if y = 0 then (255, 0, 0) else if x = 1 then (0, 0, 255) else (0, 255, 0)

/-- A materialised baseline of two cells per row whose first column holds
Scenario A's pixels: a 2-wide, 4-row array, dimension-mismatched against a
1-wide, 2-row current grid. -/
def bigRows : Rows :=
  [[(255, 0, 0), (7, 7, 7)], [(0, 255, 0), (7, 7, 7)],
   [(1, 1, 1), (1, 1, 1)], [(1, 1, 1), (1, 1, 1)]]

/-- A 3-wide current grid whose column 0 equals the baseline `cPrev` and
whose columns 1 and 2 differ: one contiguous run of two changed cells. -/
def cGrid : GridFun :=
  fun y x => if x = 0 then (if y = 0 then (255, 0, 0) else (0, 255, 0)) else (10, 20, 30)

/-- The 3-wide baseline matching `cGrid` at column 0 only. -/
def cPrev : Rows :=
  [[(255, 0, 0), (1, 1, 1), (2, 2, 2)], [(0, 255, 0), (3, 3, 3), (4, 4, 4)]]

/-!  Retimer (extract_ansi_frames_optimized.py lines 104-106, and
extract_raw_rgb.py `gen_tasks`, lines 124-131).  The code computes
`int(input_idx * multiplier)` on non-negative values, where Python `int`
truncation coincides with floor; the rate ratio is embedded as an exact
rational. -/

/-- The slot count `frames_to_generate` for input frame `i`:
`int((i+1)*mult) - int(i*mult)`. -/
def framesToGenerate (m : ℚ) (i : ℕ) : ℤ :=
  ⌊((i : ℚ) + 1) * m⌋ - ⌊(i : ℚ) * m⌋

/-- Total number of output slots emitted for `n` input frames. -/
def totalSlots (m : ℚ) (n : ℕ) : ℤ :=
  ∑ i ∈ Finset.range n, framesToGenerate m i

/-!  Binary payload builder (`_process_task` in extract_raw_rgb.py,
lines 64-76): `struct.pack('<HH', w, h)` followed by `rgb.tobytes()` of the
`(h*2, w, 3)` array. -/

/-- The two bytes of one little-endian `uint16` field of
`struct.pack('<HH', ...)` (the packed value must be below 2^16). -/
def le16 (v : ℕ) : List ℕ := [v % 256, v / 256]

/-- The three bytes of one RGB pixel. -/
def pixBytes (p : Pix) : List ℕ := [p.1, p.2.1, p.2.2]

/-- The body `rgb.tobytes()`: all pixels flattened in row-major, top-to-bottom
order. -/
def gridBytes (rows : Rows) : List ℕ :=
  rows.flatMap (fun r => r.flatMap pixBytes)

/-- The written binary payload: `header + data`. -/
def payloadBytes (w h : ℕ) (rows : Rows) : List ℕ :=
  le16 w ++ le16 h ++ gridBytes rows

/-- Claim C3, counterexample: on the first tick (baseline `None`) of the
1-by-2-pixel Scenario A grid, the encoder emits background, foreground,
glyph and reset but NO move(1,1) token — the tracked cursor already starts
at (1,1), so the stream is not the one the claim states. -/
theorem scenarioA_no_move_token :
    ansiDiff 1 1 gA none
      = some [Token.bg (255, 0, 0), Token.fg (0, 255, 0), Token.draw, Token.reset] ∧
    ansiDiff 1 1 gA none
      ≠ some [Token.move 1 1, Token.bg (255, 0, 0), Token.fg (0, 255, 0),
              Token.draw, Token.reset] := by
  decide

/-- Claim C3, amended: the first tick of Scenario A emits exactly
set-background(255,0,0), set-foreground(0,255,0), one draw glyph and reset,
in that order and with no move token; a second tick with the identical grid
emits the empty stream. -/
theorem scenarioA_stream :
    ansiDiff 1 1 gA none
      = some [Token.bg (255, 0, 0), Token.fg (0, 255, 0), Token.draw, Token.reset] ∧
    ansiDiff 1 1 gA (some (toRows gA 1 2)) = some [] := by
  decide

/-- Claim C4, counterexample: in Scenario B's second tick the tracked
colors start unset, so the encoder DOES emit a set-background(255,0,0)
token before the foreground token — the stream is not the one the claim
states. -/
theorem scenarioB_bg_token :
    ansiDiff 2 1 gB (some (toRows gA 2 2))
      = some [Token.move 1 2, Token.bg (255, 0, 0), Token.fg (0, 0, 255),
              Token.draw, Token.reset] ∧
    ansiDiff 2 1 gB (some (toRows gA 2 2))
      ≠ some [Token.move 1 2, Token.fg (0, 0, 255), Token.draw, Token.reset] := by
  decide

/-- Claim C4, amended: Scenario B's second tick emits exactly move(1,2),
set-background(255,0,0), set-foreground(0,0,255), one draw glyph and reset
— the background token appears because tracked colors reset to unset at the
start of every call; no token targets column 1. -/
theorem scenarioB_stream :
    ansiDiff 2 1 gB (some (toRows gA 2 2))
      = some [Token.move 1 2, Token.bg (255, 0, 0), Token.fg (0, 0, 255),
              Token.draw, Token.reset] := by
  decide

/-- Claim C5, counterexample: a 2-wide row whose two cells form one
contiguous run of changed cells (baseline `None`, so every cell is
changed) is encoded with ZERO cursor-move tokens, not exactly one: the
run starts where the tracked cursor already is. -/
theorem contiguous_run_zero_moves :
    (∀ x, x < 2 → cellChanged (fun _ _ => (9, 9, 9)) none 0 x = some true) ∧
    (ansiDiff 2 1 (fun _ _ => (9, 9, 9)) none).map countMove = some 0 := by
  decide

/-- Claim C8, counterexample: encoding a 1-by-2 current grid against a
baseline of 4 rows of 2 cells — mismatched dimensions in both axes —
completes normally with the empty stream (the overlapping pixels are
equal); no dimension check runs and no InvariantViolation exists in the
code. -/
theorem mismatched_baseline_no_failure :
    ansiDiff 1 1 gA (some bigRows) = some [] ∧
    bigRows.length ≠ 2 * 1 := by
  decide

/-- Claim C2: for every frame count and positive rational rate ratio, the
per-frame slot counts `floor((i+1)*mult) - floor(i*mult)` sum to
`floor(N*mult)` exactly (telescoping, including `mult < 1`), and for
`mult = 1` every frame gets exactly one slot (so the total is `N` with zero
repeat slots). -/
theorem retiming_conservation (m : ℚ) (hm : 0 < m) (n : ℕ) :
    totalSlots m n = ⌊(n : ℚ) * m⌋ ∧
    (m = 1 → totalSlots m n = (n : ℤ) ∧ ∀ i : ℕ, framesToGenerate m i = 1) := by
  have hsum : totalSlots m n = ⌊(n : ℚ) * m⌋ := by
    have h0 := Finset.sum_range_sub (fun j : ℕ => ⌊(j : ℚ) * m⌋) n
    simp only [Nat.cast_zero, zero_mul, Int.floor_zero, sub_zero] at h0
    rw [totalSlots, ← h0]
    refine Finset.sum_congr rfl fun i _ => ?_
    have hc : ((i : ℚ) + 1) * m = ((i + 1 : ℕ) : ℚ) * m := by push_cast; ring
    rw [framesToGenerate, hc]
  refine ⟨hsum, fun hm1 => ⟨?_, fun i => ?_⟩⟩
  · rw [hsum, hm1, mul_one, Int.floor_natCast]
  · rw [framesToGenerate, hm1, mul_one, mul_one, Int.floor_add_one,
      Int.floor_natCast]
    omega

/-- Witness for `retiming_conservation` at `mult = 1/2`, `N = 4`. -/
theorem retiming_conservation_witness :
    (0 : ℚ) < 1 / 2 ∧
    (totalSlots (1 / 2) 4 = ⌊((4 : ℕ) : ℚ) * (1 / 2)⌋ ∧
      ((1 / 2 : ℚ) = 1 →
        totalSlots (1 / 2) 4 = ((4 : ℕ) : ℤ) ∧
        ∀ i : ℕ, framesToGenerate (1 / 2) i = 1)) :=
  ⟨by norm_num, retiming_conservation (1 / 2) (by norm_num) 4⟩

/-- Claim C10: for every non-negative rate ratio the per-frame slot count
is non-negative, so the slot-emission loop runs a well-defined number of
iterations, and whenever the count is positive the repeat loop over
`frames_to_generate - 1` also has a non-negative bound. -/
theorem framesToGenerate_nonneg (m : ℚ) (hm : 0 ≤ m) (i : ℕ) :
    0 ≤ framesToGenerate m i ∧
    (0 < framesToGenerate m i → 0 ≤ framesToGenerate m i - 1) := by
  have hle : (i : ℚ) * m ≤ ((i : ℚ) + 1) * m := by
    have : (i : ℚ) ≤ (i : ℚ) + 1 := by linarith
    exact mul_le_mul_of_nonneg_right this hm
  constructor
  · exact sub_nonneg.mpr (Int.floor_mono hle)
  · omega

/-- Witness for `framesToGenerate_nonneg` at `mult = 2/3`, `i = 5`. -/
theorem framesToGenerate_nonneg_witness :
    (0 : ℚ) ≤ 2 / 3 ∧
    (0 ≤ framesToGenerate (2 / 3) 5 ∧
      (0 < framesToGenerate (2 / 3) 5 → 0 ≤ framesToGenerate (2 / 3) 5 - 1)) :=
  ⟨by norm_num, framesToGenerate_nonneg (2 / 3) (by norm_num) 5⟩

lemma rowBytes_length (r : List Pix) : (r.flatMap pixBytes).length = 3 * r.length := by
  induction r with
  | nil => simp
  | cons p ps ih =>
    simp only [List.flatMap_cons, List.length_append, ih, pixBytes,
      List.length_cons, List.length_nil]
    ring

lemma gridBytes_length (rows : Rows) (w : ℕ) (hr : ∀ r ∈ rows, r.length = w) :
    (gridBytes rows).length = rows.length * (3 * w) := by
  induction rows with
  | nil => simp [gridBytes]
  | cons r rs ih =>
    have hr0 : r.length = w := hr r (List.mem_cons_self r rs)
    have ih2 := ih fun r hm => hr r (List.mem_cons_of_mem _ hm)
    simp only [gridBytes, List.flatMap_cons, List.length_append] at *
    rw [rowBytes_length, hr0, ih2, List.length_cons]
    ring

lemma rowBytes_pix (r : List Pix) (x : ℕ) (hx : x < r.length) :
    ∃ p, r.get? x = some p ∧
      ((r.flatMap pixBytes).drop (x * 3)).take 3 = pixBytes p := by
  induction r generalizing x with
  | nil => simp at hx
  | cons p ps ih =>
    cases x with
    | zero =>
      refine ⟨p, rfl, ?_⟩
      simp [pixBytes, List.flatMap_cons]
    | succ x =>
      obtain ⟨q, hq, hbytes⟩ := ih x (by simpa using hx)
      refine ⟨q, by simpa using hq, ?_⟩
      have hsplit : (x + 1) * 3 = (pixBytes p).length + x * 3 := by
        simp [pixBytes]; ring
      rw [List.flatMap_cons, hsplit, List.drop_append, hbytes]

lemma gridBytes_pix (rows : Rows) (w : ℕ) (hr : ∀ r ∈ rows, r.length = w)
    (y2 x : ℕ) (hy : y2 < rows.length) (hx : x < w) :
    ∃ p, pixAt rows y2 x = some p ∧
      ((gridBytes rows).drop ((y2 * w + x) * 3)).take 3 = pixBytes p := by
  induction rows generalizing y2 with
  | nil => simp at hy
  | cons r rs ih =>
    cases y2 with
    | zero =>
      have hr0 : r.length = w := hr r (List.mem_cons_self r rs)
      obtain ⟨p, hp, hbytes⟩ := rowBytes_pix r x (by omega)
      refine ⟨p, by simpa [pixAt] using hp, ?_⟩
      have hA : (r.flatMap pixBytes).length = 3 * w := by
        rw [rowBytes_length, hr0]
      have hdrop : (gridBytes (r :: rs)).drop ((0 * w + x) * 3)
          = (r.flatMap pixBytes).drop (x * 3) ++ gridBytes rs := by
        rw [gridBytes, List.flatMap_cons]
        have : (0 * w + x) * 3 = x * 3 := by ring
        rw [this, List.drop_append_of_le_length (by omega)]
        rfl
      rw [hdrop, List.take_append_of_le_length (by rw [List.length_drop]; omega),
        hbytes]
    | succ y2 =>
      have hr0 : r.length = w := hr r (List.mem_cons_self r rs)
      have ih2 := ih (fun r hm => hr r (List.mem_cons_of_mem _ hm)) y2
        (by simpa using hy)
      obtain ⟨p, hp, hbytes⟩ := ih2
      refine ⟨p, by simpa [pixAt] using hp, ?_⟩
      have hA : (r.flatMap pixBytes).length = 3 * w := by
        rw [rowBytes_length, hr0]
      have hsplit : ((y2 + 1) * w + x) * 3
          = (r.flatMap pixBytes).length + (y2 * w + x) * 3 := by
        rw [hA]; ring
      rw [gridBytes, List.flatMap_cons, hsplit, List.drop_append]
      exact hbytes

/-- Claim C9: the binary payload is a 4-byte little-endian header — width
as uint16 then height as uint16 — followed by exactly `width * height*2 * 3`
raw RGB bytes in row-major, top-to-bottom order (a full frame, no delta):
the pixel at row `y2`, column `x` occupies the three bytes at offset
`4 + (y2*width + x)*3`. -/
theorem payload_wire_format (w h : ℕ) (rows : Rows)
    (hw : w < 65536) (hh : h < 65536)
    (hlen : rows.length = 2 * h) (hr : ∀ r ∈ rows, r.length = w) :
    (payloadBytes w h rows).length = 4 + w * (h * 2) * 3 ∧
    (payloadBytes w h rows).take 4 = [w % 256, w / 256, h % 256, h / 256] ∧
    ∀ y2 x, y2 < 2 * h → x < w →
      ∃ p, pixAt rows y2 x = some p ∧
        ((payloadBytes w h rows).drop (4 + (y2 * w + x) * 3)).take 3
          = [p.1, p.2.1, p.2.2] := by
  refine ⟨?_, ?_, ?_⟩
  · simp only [payloadBytes, List.length_append, le16, List.length_cons,
      List.length_nil, gridBytes_length rows w hr, hlen]
    ring
  · simp [payloadBytes, le16]
  · intro y2 x hy hx
    obtain ⟨p, hp, hbytes⟩ := gridBytes_pix rows w hr y2 x (by omega) hx
    refine ⟨p, hp, ?_⟩
    have hhead : (le16 w ++ le16 h).length = 4 := by simp [le16]
    have hassoc : payloadBytes w h rows
        = (le16 w ++ le16 h) ++ gridBytes rows := by
      rw [payloadBytes, List.append_assoc]
    have hoff : 4 + (y2 * w + x) * 3
        = (le16 w ++ le16 h).length + (y2 * w + x) * 3 := by rw [hhead]
    rw [hassoc, hoff, List.drop_append, hbytes]
    rfl

/-- Witness for `payload_wire_format`: a 1-cell grid, two pixel rows of one
pixel each. -/
theorem payload_wire_format_witness :
    ((1 : ℕ) < 65536 ∧ (1 : ℕ) < 65536 ∧
      ([[((1 : ℕ), (2 : ℕ), (3 : ℕ))], [(4, 5, 6)]] : Rows).length = 2 * 1 ∧
      ∀ r ∈ ([[((1 : ℕ), (2 : ℕ), (3 : ℕ))], [(4, 5, 6)]] : Rows), r.length = 1) ∧
    ((payloadBytes 1 1 [[(1, 2, 3)], [(4, 5, 6)]]).length = 4 + 1 * (1 * 2) * 3 ∧
      (payloadBytes 1 1 [[(1, 2, 3)], [(4, 5, 6)]]).take 4
        = [1 % 256, 1 / 256, 1 % 256, 1 / 256] ∧
      ∀ y2 x, y2 < 2 * 1 → x < 1 →
        ∃ p, pixAt [[(1, 2, 3)], [(4, 5, 6)]] y2 x = some p ∧
          ((payloadBytes 1 1 [[(1, 2, 3)], [(4, 5, 6)]]).drop
              (4 + (y2 * 1 + x) * 3)).take 3 = [p.1, p.2.1, p.2.2]) :=
  ⟨⟨by norm_num, by norm_num, by decide, by decide⟩,
    payload_wire_format 1 1 [[(1, 2, 3)], [(4, 5, 6)]]
      (by norm_num) (by norm_num) (by decide) (by decide)⟩

lemma countMove_append (a b : List Token) :
    countMove (a ++ b) = countMove a + countMove b := by
  induction a with
  | nil => simp [countMove]
  | cons t ts ih =>
    cases t <;> simp [countMove, ih] <;> omega

lemma countDraw_append (a b : List Token) :
    countDraw (a ++ b) = countDraw a + countDraw b := by
  induction a with
  | nil => simp [countDraw]
  | cons t ts ih =>
    cases t <;> simp [countDraw, ih] <;> omega

lemma countMove_zero_no_move (ts : List Token) (h : countMove ts = 0)
    (a b : ℕ) (hm : Token.move a b ∈ ts) : False := by
  induction ts with
  | nil => simp at hm
  | cons t tl ih =>
    cases hm with
    | head => simp [countMove] at h
    | tail _ hm2 =>
      cases t <;> simp [countMove] at h <;> exact ih h hm2

lemma drawCell_spec (top bottom : Pix) (y x : ℕ) (s : EncSt) :
    ∃ ts, (drawCell top bottom y x s).out = s.out ++ ts ∧
      (drawCell top bottom y x s).cursorY = y + 1 ∧
      (drawCell top bottom y x s).cursorX = x + 2 ∧
      countMove ts = (if s.cursorY = y + 1 ∧ s.cursorX = x + 1 then 0 else 1) ∧
      countDraw ts = 1 ∧
      (∀ a b, Token.move a b ∈ ts → a = y + 1 ∧ b = x + 1) := by
  refine ⟨(if s.cursorY = y + 1 ∧ s.cursorX = x + 1 then ([] : List Token)
        else [Token.move (y + 1) (x + 1)])
      ++ ((if s.curBg = some top then ([] : List Token) else [Token.bg top])
      ++ ((if s.curFg = some bottom then ([] : List Token) else [Token.fg bottom])
      ++ [Token.draw])), ?_, ?_, ?_, ?_, ?_, ?_⟩ <;>
    by_cases h1 : s.cursorY = y + 1 ∧ s.cursorX = x + 1 <;>
    by_cases h2 : s.curBg = some top <;>
    by_cases h3 : s.curFg = some bottom <;>
    simp [drawCell, h1, h2, h3, countMove, countDraw, countMove_append,
      countDraw_append] <;>
    intro a b hab <;> simp_all

lemma scanCells_append (cur : GridFun) (prev : Option Rows) (y : ℕ)
    (xs ys : List ℕ) (s : EncSt) :
    scanCells cur prev y (xs ++ ys) s
      = (scanCells cur prev y xs s).bind
          (fun s2 => scanCells cur prev y ys s2) := by
  induction xs generalizing s with
  | nil => simp [scanCells]
  | cons a as ih =>
    simp only [List.cons_append, scanCells]
    cases encodeCell cur prev y a s with
    | none => rfl
    | some s2 => exact ih s2

lemma scanCells_skip (cur : GridFun) (prev : Option Rows) (y : ℕ)
    (xs : List ℕ) (s : EncSt)
    (hx : ∀ x ∈ xs, cellChanged cur prev (2 * y) x = some false) :
    scanCells cur prev y xs s = some s := by
  induction xs with
  | nil => rfl
  | cons a as ih =>
    have ha := hx a (List.mem_cons_self a as)
    simp only [scanCells, encodeCell, ha]
    exact ih fun x hm => hx x (List.mem_cons_of_mem _ hm)

lemma scanCells_run_aligned (cur : GridFun) (prev : Option Rows) (y : ℕ)
    (n : ℕ) : ∀ (x0 : ℕ) (s : EncSt),
    (∀ x ∈ List.range' x0 n, cellChanged cur prev (2 * y) x = some true) →
    s.cursorY = y + 1 → s.cursorX = x0 + 1 →
    ∃ s2 ts, scanCells cur prev y (List.range' x0 n) s = some s2 ∧
      s2.out = s.out ++ ts ∧ countMove ts = 0 := by
  induction n with
  | zero => exact fun x0 s _ _ _ => ⟨s, [], rfl, by simp, rfl⟩
  | succ n ih =>
    intro x0 s hch hcy hcx
    have h0 : cellChanged cur prev (2 * y) x0 = some true :=
      hch x0 (by simp [List.range'_succ])
    obtain ⟨ts1, hout1, hcy1, hcx1, hmv1, _, _⟩ :=
      drawCell_spec (cur (2 * y) x0) (cur (2 * y + 1) x0) y x0 s
    have hmv1z : countMove ts1 = 0 := by
      rw [hmv1, if_pos ⟨hcy, hcx⟩]
    obtain ⟨s2, ts2, hscan, hout2, hmv2⟩ :=
      ih (x0 + 1) (drawCell (cur (2 * y) x0) (cur (2 * y + 1) x0) y x0 s)
        (fun x hm => hch x (by simp [List.range'_succ]; right; simpa using hm))
        hcy1 (by omega)
    refine ⟨s2, ts1 ++ ts2, ?_, ?_, ?_⟩
    · rw [List.range'_succ]
      simp only [scanCells, encodeCell, h0]
      exact hscan
    · rw [hout2, hout1, List.append_assoc]
    · rw [countMove_append, hmv1z, hmv2]

/-- Claim C5, amended: for a row whose changed cells form one horizontally
contiguous run of `k >= 1` cells starting at column `c0` (and no other
changed cells in that row), processing the row appends AT MOST one
cursor-move token — and any move token it appends targets the first cell of
the run — never `k` move tokens; the count is zero exactly when the
tracked cursor is already at the run's first cell, because the cursor
auto-advances one column after each draw. -/
theorem contiguous_run_single_move (cur : GridFun) (prev : Option Rows)
    (w y c0 k : ℕ) (hk : 1 ≤ k) (hck : c0 + k ≤ w)
    (hch : ∀ x, x < w → cellChanged cur prev (2 * y) x
        = some (decide (c0 ≤ x ∧ x < c0 + k)))
    (s s' : EncSt) (henc : encodeRow cur prev w y s = some s') :
    ∃ ts, s'.out = s.out ++ ts ∧ countMove ts ≤ 1 ∧
      ∀ a b, Token.move a b ∈ ts → a = y + 1 ∧ b = c0 + 1 := by
  have main : scanCells cur prev y (List.range w) s = some s' →
      ∃ ts, s'.out = s.out ++ ts ∧ countMove ts ≤ 1 ∧
        ∀ a b, Token.move a b ∈ ts → a = y + 1 ∧ b = c0 + 1 := by
    intro hscan
    obtain ⟨d, hd⟩ : ∃ d, w = c0 + k + d := ⟨w - (c0 + k), by omega⟩
    obtain ⟨k1, hk1⟩ : ∃ k1, k = k1 + 1 := ⟨k - 1, by omega⟩
    have hdec : List.range w
        = List.range' 0 c0 ++ (List.range' c0 k ++ List.range' (c0 + k) d) := by
      rw [List.range_eq_range']
      have e1 : List.range' c0 k ++ List.range' (c0 + k) d
          = List.range' c0 (d + k) := by
        have := List.range'_append c0 k d 1
        simpa using this
      have e2 : List.range' 0 c0 ++ List.range' c0 (d + k)
          = List.range' 0 (d + k + c0) := by
        have := List.range'_append 0 c0 (d + k) 1
        simpa using this
      rw [e1, e2]
      congr 1
      omega
    rw [hdec, scanCells_append] at hscan
    have hpre : scanCells cur prev y (List.range' 0 c0) s = some s := by
      apply scanCells_skip
      intro x hx
      rw [List.mem_range'_1] at hx
      rw [hch x (by omega)]
      simp only [Option.some.injEq]
      exact decide_eq_false (by omega)
    rw [hpre, Option.some_bind, scanCells_append] at hscan
    have hc0 : cellChanged cur prev (2 * y) c0 = some true := by
      rw [hch c0 (by omega)]
      simp only [Option.some.injEq, decide_eq_true_eq]
      omega
    obtain ⟨ts1, hout1, hcy1, hcx1, hmv1, _, hmem1⟩ :=
      drawCell_spec (cur (2 * y) c0) (cur (2 * y + 1) c0) y c0 s
    obtain ⟨s2, ts2, hscanA, hout2, hmv2⟩ :=
      scanCells_run_aligned cur prev y k1 (c0 + 1)
        (drawCell (cur (2 * y) c0) (cur (2 * y + 1) c0) y c0 s)
        (fun x hm => by
          rw [List.mem_range'_1] at hm
          rw [hch x (by omega)]
          simp only [Option.some.injEq, decide_eq_true_eq]
          omega)
        hcy1 (by omega)
    have hA : scanCells cur prev y (List.range' c0 k) s = some s2 := by
      rw [hk1, List.range'_succ]
      simp only [scanCells, encodeCell, hc0]
      exact hscanA
    rw [hA, Option.some_bind] at hscan
    have hB : scanCells cur prev y (List.range' (c0 + k) d) s2 = some s2 := by
      apply scanCells_skip
      intro x hx
      rw [List.mem_range'_1] at hx
      rw [hch x (by omega)]
      simp only [Option.some.injEq]
      exact decide_eq_false (by omega)
    rw [hB] at hscan
    obtain rfl : s2 = s' := by
      injection hscan
    refine ⟨ts1 ++ ts2, ?_, ?_, ?_⟩
    · rw [hout2, hout1, List.append_assoc]
    · rw [countMove_append, hmv2]
      split at hmv1 <;> omega
    · intro a b hab
      rcases List.mem_append.mp hab with hmem | hmem
      · exact hmem1 a b hmem
      · exact absurd hmem (fun hm => countMove_zero_no_move ts2 hmv2 a b hm)
  rcases prev with _ | p
  · exact main (by simpa [encodeRow] using henc)
  · rw [encodeRow] at henc
    split at henc
    · obtain rfl : s = s' := by injection henc
      exact ⟨[], by simp, by simp [countMove], by simp⟩
    · exact main henc

/-- The state produced by scanning the witness row of `cGrid` against
`cPrev`. -/
def c5res : EncSt :=
  ⟨1, 4, some (10, 20, 30), some (10, 20, 30),
    [Token.move 1 2, Token.bg (10, 20, 30), Token.fg (10, 20, 30),
     Token.draw, Token.draw]⟩

/-- Witness for `contiguous_run_single_move`: a 3-wide row whose changed
cells are the contiguous run at columns 1 and 2. -/
theorem contiguous_run_single_move_witness :
    (1 ≤ 2 ∧ 1 + 2 ≤ 3 ∧
      (∀ x, x < 3 → cellChanged cGrid (some cPrev) (2 * 0) x
        = some (decide (1 ≤ x ∧ x < 1 + 2))) ∧
      encodeRow cGrid (some cPrev) 3 0 initSt = some c5res) ∧
    (∃ ts, c5res.out = initSt.out ++ ts ∧ countMove ts ≤ 1 ∧
      ∀ a b, Token.move a b ∈ ts → a = 0 + 1 ∧ b = 1 + 1) :=
  ⟨⟨by decide, by decide, by decide, by decide⟩,
    contiguous_run_single_move cGrid (some cPrev) 3 0 1 2 (by decide)
      (by decide) (by decide) initSt c5res (by decide)⟩

lemma scanCells_none_draws (cur : GridFun) (y : ℕ) (xs : List ℕ) :
    ∀ s : EncSt, ∃ s2, scanCells cur none y xs s = some s2 ∧
      countDraw s2.out = countDraw s.out + xs.length := by
  induction xs with
  | nil => exact fun s => ⟨s, rfl, by simp⟩
  | cons a as ih =>
    intro s
    obtain ⟨ts1, hout1, _, _, _, hdr1, _⟩ :=
      drawCell_spec (cur (2 * y) a) (cur (2 * y + 1) a) y a s
    obtain ⟨s2, hscan, hcount⟩ :=
      ih (drawCell (cur (2 * y) a) (cur (2 * y + 1) a) y a s)
    refine ⟨s2, ?_, ?_⟩
    · simpa only [scanCells, encodeCell, cellChanged] using hscan
    · rw [hcount, hout1, countDraw_append, hdr1, List.length_cons]
      ring

lemma scanRows_none_draws (cur : GridFun) (w : ℕ) (ys : List ℕ) :
    ∀ s : EncSt, ∃ s2, scanRows cur none w ys s = some s2 ∧
      countDraw s2.out = countDraw s.out + ys.length * w := by
  induction ys with
  | nil => exact fun s => ⟨s, rfl, by simp⟩
  | cons a as ih =>
    intro s
    obtain ⟨s1, hscan1, hcount1⟩ := scanCells_none_draws cur a (List.range w) s
    obtain ⟨s2, hscan2, hcount2⟩ := ih s1
    refine ⟨s2, ?_, ?_⟩
    · simpa only [scanRows, encodeRow, hscan1] using hscan2
    · rw [hcount2, hcount1, List.length_range, List.length_cons]
      ring

/-- Claim C6: with baseline `None` every cell is treated as changed, so
encoding a `w`-by-`2h`-pixel grid emits exactly `w * h` draw tokens — every
cell drawn exactly once. -/
theorem baseline_none_draw_count (w h : ℕ) (hw : 1 ≤ w) (hh : 1 ≤ h)
    (cur : GridFun) :
    (ansiDiff w h cur none).map countDraw = some (w * h) := by
  obtain ⟨s2, hscan, hcount⟩ := scanRows_none_draws cur w (List.range h) initSt
  rw [ansiDiff, hscan]
  simp only [Option.map_map, Option.map, Function.comp]
  have hcount2 : countDraw s2.out = w * h := by
    rw [hcount, List.length_range, show countDraw initSt.out = 0 from rfl]
    ring
  by_cases hout : s2.out = []
  · rw [if_pos hout]
    rw [hout, show countDraw ([] : List Token) = 0 from rfl] at hcount2
    simp [countDraw, ← hcount2]
  · rw [if_neg hout, countDraw_append, hcount2,
      show countDraw [Token.reset] = 0 from rfl, Nat.add_zero]

/-- Witness for `baseline_none_draw_count`: a 2-by-2-pixel grid (two cells)
with baseline `None` draws each cell once. -/
theorem baseline_none_draw_count_witness :
    (1 ≤ 2 ∧ 1 ≤ 1) ∧
    (ansiDiff 2 1 (fun _ _ => (0, 0, 0)) none).map countDraw = some (2 * 1) :=
  ⟨⟨by decide, by decide⟩,
    baseline_none_draw_count 2 1 (by decide) (by decide) (fun _ _ => (0, 0, 0))⟩

lemma toRows_slice (f : GridFun) (w h2 y2 : ℕ) (hy : y2 + 2 ≤ h2) :
    ((toRows f w h2).drop y2).take 2 = [mkRow f y2 w, mkRow f (y2 + 1) w] := by
  obtain ⟨k, hk⟩ : ∃ k, h2 - y2 = k + 2 := ⟨h2 - y2 - 2, by omega⟩
  have e : List.range' 0 y2 ++ List.range' y2 (h2 - y2) = List.range' 0 h2 := by
    have h0 := List.range'_append 0 y2 (h2 - y2) 1
    simp only [Nat.one_mul, Nat.zero_add] at h0
    rw [h0]
    congr 1
    omega
  have hdrop : (List.range h2).drop y2 = List.range' y2 (h2 - y2) := by
    rw [List.range_eq_range', ← e,
      List.drop_left' (List.length_range' 0 1 y2)]
  rw [toRows, ← List.map_drop, hdrop, hk, List.range'_succ, List.range'_succ]
  simp

lemma mkRow_congr (f cur : GridFun) (y2 w : ℕ)
    (hag : ∀ x, x < w → f y2 x = cur y2 x) :
    mkRow f y2 w = mkRow cur y2 w := by
  rw [mkRow, mkRow]
  exact List.map_congr_left fun x hx => hag x (List.mem_range.mp hx)

lemma scanRows_skip (cur : GridFun) (prev : Option Rows) (w : ℕ)
    (ys : List ℕ) (s : EncSt)
    (hy : ∀ y ∈ ys, ∀ s2 : EncSt, encodeRow cur prev w y s2 = some s2) :
    scanRows cur prev w ys s = some s := by
  induction ys with
  | nil => rfl
  | cons a as ih =>
    simp only [scanRows, hy a (List.mem_cons_self a as) s]
    exact ih fun y hm => hy y (List.mem_cons_of_mem _ hm)

/-- Claim C1: encoding any grid against a baseline that is element-wise
identical on every in-range pixel (same dimensions) skips every row, emits
no token at all, and writes the empty string. -/
theorem encode_identity_empty (w h : ℕ) (cur f : GridFun)
    (hag : ∀ y2, y2 < 2 * h → ∀ x, x < w → f y2 x = cur y2 x) :
    ansiDiff w h cur (some (toRows f w (2 * h))) = some [] ∧
    (ansiDiff w h cur (some (toRows f w (2 * h)))).map renderTokens
      = some "" := by
  have hrows : ∀ y ∈ List.range h, ∀ s : EncSt,
      encodeRow cur (some (toRows f w (2 * h))) w y s = some s := by
    intro y hy s
    have hy2 : y < h := List.mem_range.mp hy
    have hslice := toRows_slice f w (2 * h) (2 * y) (by omega)
    have hcond : [mkRow cur (2 * y) w, mkRow cur (2 * y + 1) w]
        = ((toRows f w (2 * h)).drop (2 * y)).take 2 := by
      rw [hslice, mkRow_congr f cur (2 * y) w (hag (2 * y) (by omega)),
        mkRow_congr f cur (2 * y + 1) w (hag (2 * y + 1) (by omega))]
    simp only [encodeRow, if_pos hcond]
  have hscan : scanRows cur (some (toRows f w (2 * h))) w (List.range h) initSt
      = some initSt :=
    scanRows_skip cur (some (toRows f w (2 * h))) w (List.range h) initSt hrows
  constructor
  · rw [ansiDiff, hscan]
    rfl
  · rw [ansiDiff, hscan]
    rfl

/-- Witness for `encode_identity_empty`: Scenario A's grid encoded against
itself. -/
theorem encode_identity_empty_witness :
    (∀ y2, y2 < 2 * 1 → ∀ x, x < 1 → gA y2 x = gA y2 x) ∧
    (ansiDiff 1 1 gA (some (toRows gA 1 (2 * 1))) = some [] ∧
      (ansiDiff 1 1 gA (some (toRows gA 1 (2 * 1)))).map renderTokens
        = some "") :=
  ⟨fun _ _ _ _ => rfl, encode_identity_empty 1 1 gA gA (fun _ _ _ _ => rfl)⟩

/-- The sequential processing loop (source lines 95-255, delta path): each
input frame is encoded against the stored baseline, then the baseline is
replaced by the frame just encoded.  Nothing but the baseline is carried
from one iteration to the next — cursor and colors are re-initialised
inside `ansiDiff`. -/
def processFrames (w h : ℕ) : Option Rows → List GridFun → List (Option (List Token))
  | _, [] => []
  | prev, g :: gs =>
    ansiDiff w h g prev :: processFrames w h (some (toRows g w (2 * h))) gs

lemma processFrames_pair (w h : ℕ) (b c : GridFun) (gs : List GridFun) :
    ∀ (pre : List GridFun) (prev : Option Rows),
      (processFrames w h prev (pre ++ b :: c :: gs)).get? (pre.length + 1)
        = some (ansiDiff w h c (some (toRows b w (2 * h)))) := by
  intro pre
  induction pre with
  | nil => intro prev; rfl
  | cons a as ih =>
    intro prev
    simp only [List.cons_append, processFrames, List.length_cons]
    rw [show as.length + 1 + 1 = (as.length + 1) + 1 from rfl,
      List.get?_cons_succ]
    exact ih (some (toRows a w (2 * h)))

/-- Claim C7: every encode call starts from the fixed initial tracker state
(cursor (1,1), colors unset), so the operation stream produced for a given
(current, baseline) pair does not depend on what was encoded before: in any
two processing histories that reach the same baseline frame `b` followed by
the same current frame `cur`, the payload emitted for `cur` is the same —
namely the pure function of `(cur, b)` alone. -/
theorem encode_no_state_leak (w h : ℕ) (pre₁ pre₂ gs₁ gs₂ : List GridFun)
    (b cur : GridFun) :
    (processFrames w h none (pre₁ ++ b :: cur :: gs₁)).get? (pre₁.length + 1)
      = (processFrames w h none (pre₂ ++ b :: cur :: gs₂)).get? (pre₂.length + 1) ∧
    (processFrames w h none (pre₁ ++ b :: cur :: gs₁)).get? (pre₁.length + 1)
      = some (ansiDiff w h cur (some (toRows b w (2 * h)))) := by
  rw [processFrames_pair w h b cur gs₁ pre₁ none,
    processFrames_pair w h b cur gs₂ pre₂ none]
  exact ⟨rfl, rfl⟩

lemma cellChanged_isSome (cur : GridFun) (rows : Rows) (y2 x : ℕ)
    (h1 : ∃ r, rows.get? y2 = some r ∧ x < r.length)
    (h2 : ∃ r, rows.get? (y2 + 1) = some r ∧ x < r.length) :
    (cellChanged cur (some rows) y2 x).isSome := by
  obtain ⟨r1, hr1, hx1⟩ := h1
  obtain ⟨r2, hr2, hx2⟩ := h2
  have hp1 : ∃ p, pixAt rows y2 x = some p := by
    rw [pixAt, hr1, Option.some_bind]
    cases hq : r1.get? x with
    | none => rw [List.get?_eq_none] at hq; omega
    | some p => exact ⟨p, rfl⟩
  have hp2 : ∃ p, pixAt rows (y2 + 1) x = some p := by
    rw [pixAt, hr2, Option.some_bind]
    cases hq : r2.get? x with
    | none => rw [List.get?_eq_none] at hq; omega
    | some p => exact ⟨p, rfl⟩
  obtain ⟨p1, hp1⟩ := hp1
  obtain ⟨p2, hp2⟩ := hp2
  rw [cellChanged, hp1, hp2]
  rfl

lemma scanCells_isSome (cur : GridFun) (rows : Rows) (y : ℕ) (xs : List ℕ)
    (hx : ∀ x ∈ xs, (cellChanged cur (some rows) (2 * y) x).isSome) :
    ∀ s : EncSt, (scanCells cur (some rows) y xs s).isSome := by
  induction xs with
  | nil => intro s; rfl
  | cons a as ih =>
    intro s
    have ha := hx a (List.mem_cons_self a as)
    rw [scanCells]
    cases hc : cellChanged cur (some rows) (2 * y) a with
    | none => rw [hc] at ha; exact absurd ha (by simp)
    | some changed =>
      have : encodeCell cur (some rows) y a s
          = some (if changed
              then drawCell (cur (2 * y) a) (cur (2 * y + 1) a) y a s else s) := by
        rw [encodeCell, hc]
        cases changed <;> rfl
      rw [this]
      exact ih (fun x hm => hx x (List.mem_cons_of_mem _ hm)) _

lemma scanRows_isSome (cur : GridFun) (rows : Rows) (w : ℕ) (ys : List ℕ)
    (hy : ∀ y ∈ ys, ∀ x, x < w →
      (cellChanged cur (some rows) (2 * y) x).isSome) :
    ∀ s : EncSt, (scanRows cur (some rows) w ys s).isSome := by
  induction ys with
  | nil => intro s; rfl
  | cons a as ih =>
    intro s
    rw [scanRows]
    have hcells : (scanCells cur (some rows) a (List.range w) s).isSome :=
      scanCells_isSome cur rows a (List.range w)
        (fun x hm => hy a (List.mem_cons_self a as) x (List.mem_range.mp hm)) s
    have hrow : (encodeRow cur (some rows) w a s).isSome := by
      rw [encodeRow]
      split
      · rfl
      · exact hcells
    cases he : encodeRow cur (some rows) w a s with
    | none => rw [he] at hrow; exact absurd hrow (by simp)
    | some s2 => exact ih (fun y hm => hy y (List.mem_cons_of_mem _ hm)) s2

/-- Claim C8, amended: the code performs no dimension check and defines no
InvariantViolation; whenever the baseline array contains every pixel
position the scan can read (at least `2h` rows, each at least `w` wide),
the encode completes normally even if the dimensions differ from the
current grid's — the comparison simply runs over the overlapping region.
(A baseline too small to cover a read instead surfaces as an uncaught
out-of-range read, not as the claimed `InvariantViolation`.) -/
theorem mismatched_baseline_total (w h : ℕ) (cur : GridFun) (rows : Rows)
    (hcov : ∀ y2, y2 < 2 * h → ∃ r, rows.get? y2 = some r ∧ w ≤ r.length) :
    (ansiDiff w h cur (some rows)).isSome := by
  have hscanR : (scanRows cur (some rows) w (List.range h) initSt).isSome := by
    apply scanRows_isSome
    intro y hy x hx
    have hy2 : y < h := List.mem_range.mp hy
    apply cellChanged_isSome
    · obtain ⟨r, hr, hl⟩ := hcov (2 * y) (by omega)
      exact ⟨r, hr, by omega⟩
    · obtain ⟨r, hr, hl⟩ := hcov (2 * y + 1) (by omega)
      exact ⟨r, hr, by omega⟩
  rw [ansiDiff]
  cases hs : scanRows cur (some rows) w (List.range h) initSt with
  | none => rw [hs] at hscanR; exact absurd hscanR (by simp)
  | some s2 => rfl

/-- Witness for `mismatched_baseline_total`: the 1-by-2 Scenario A grid
against the 2-wide, 4-row baseline `bigRows`. -/
theorem mismatched_baseline_total_witness :
    (∀ y2, y2 < 2 * 1 → ∃ r, bigRows.get? y2 = some r ∧ 1 ≤ r.length) ∧
    (ansiDiff 1 1 gA (some bigRows)).isSome :=
  ⟨fun y2 hy => by
      interval_cases y2
      · exact ⟨_, rfl, by norm_num [bigRows]⟩
      · exact ⟨_, rfl, by norm_num [bigRows]⟩,
    mismatched_baseline_total 1 1 gA bigRows (fun y2 hy => by
      interval_cases y2
      · exact ⟨_, rfl, by norm_num [bigRows]⟩
      · exact ⟨_, rfl, by norm_num [bigRows]⟩)⟩

end Gascii
